import Mathlib

/-!
Verification development for the chunking and tag-batching subsystem of the
portfolio ingestion pipeline.

The Python sources `scripts/chunk.py` and `scripts/generate_tags.py` are
shallowly embedded below.  Third-party collaborators (the tiktoken encoder,
the nltk sentence splitter, the langchain markdown header splitter and the
LLM provider) are injected capabilities in the source and are modelled as
explicit function parameters.
-/

namespace Portfolio

/-- Python `"\n".join(parts)`. -/
def joinNl : List String → String
  | [] => ""
  | [s] => s
  | s :: rest => s ++ "\n" ++ joinNl rest

/-- Python `" ".join(parts)`. -/
def joinSp : List String → String
  | [] => ""
  | [s] => s
  | s :: rest => s ++ " " ++ joinSp rest

/-- The `h1`/`h2`/`h3` metadata dict attached by the markdown header splitter
to one section: a key is present only when the corresponding heading level is
in scope for the section. -/
structure SectionMeta where
  h1 : Option String
  h2 : Option String
  h3 : Option String
deriving DecidableEq, Repr

/-- One document section produced by `MarkdownHeaderTextSplitter.split_text`:
header metadata plus the section body (`page_content`). -/
structure SectionDoc where
  metadata : SectionMeta
  page_content : String
deriving DecidableEq, Repr

/-- The header texts present in the metadata, in level order
(`[metadata[k] for k in ["h1", "h2", "h3"] if k in metadata]`). -/
def headerValues (m : SectionMeta) : List String :=
  [m.h1, m.h2, m.h3].filterMap id

/-- `_build_chunk_context_header(metadata, part)` from `scripts/chunk.py`:
joins the present headers with newlines and, when a part number is supplied,
appends `" - part {part}"`. -/
def build_chunk_context_header (m : SectionMeta) (part : Option Nat) : String :=
  let header := joinNl (headerValues m)
  match part with
  | some p => header ++ " - part " ++ Nat.repr p
  | none => header

/-- Loop state of `_chunk_text_by_sentences`: finished chunks, the sentences
accumulated for the current chunk, and the current chunk's token count. -/
structure SentState where
  chunks : List String
  current_chunk : List String
  current_tokens : Nat
deriving Repr

/-- One iteration of the sentence-packing loop of `_chunk_text_by_sentences`:
if adding the sentence would exceed `max_tokens`, the current chunk is closed
(joined with spaces) and the sentence starts a new chunk; otherwise the
sentence is appended to the current chunk. -/
def sentStep (encLen : String → Nat) (max_tokens : Nat)
    (st : SentState) (sentence : String) : SentState :=
  let tokens := encLen sentence
  if st.current_tokens + tokens > max_tokens then
    { chunks := st.chunks ++ [joinSp st.current_chunk]
      current_chunk := [sentence]
      current_tokens := tokens }
  else
    { st with
      current_chunk := st.current_chunk ++ [sentence]
      current_tokens := st.current_tokens + tokens }

/-- `_chunk_text_by_sentences(text, max_tokens)` from `scripts/chunk.py`,
with the tokenizer (`len(enc.encode(·))`) and the nltk sentence splitter
(`sent_tokenize`) injected as `encLen` and `sentTok`.  Splits the text into
sentences, packs them greedily into chunks, and flushes the last non-empty
chunk. -/
def chunk_text_by_sentences (encLen : String → Nat) (sentTok : String → List String)
    (text : String) (max_tokens : Nat) : List String :=
  let sentences := sentTok text
  let st := sentences.foldl (sentStep encLen max_tokens)
    { chunks := [], current_chunk := [], current_tokens := 0 }
  if st.current_chunk ≠ [] then st.chunks ++ [joinSp st.current_chunk] else st.chunks

/-- Body of the `for doc in docs` loop of `_chunk_markdown`: the section is
emitted as one header-prefixed chunk when the combined header + content token
count fits, and otherwise as one chunk per sentence run with a 1-based part
number appended to each run's header. -/
def markdownStep (encLen : String → Nat) (sentTok : String → List String)
    (max_tokens : Nat) (result : List String) (doc : SectionDoc) : List String :=
  let header := build_chunk_context_header doc.metadata none
  let content := header ++ "\n" ++ doc.page_content
  if encLen content > max_tokens then
    let chunks := chunk_text_by_sentences encLen sentTok doc.page_content max_tokens
    result ++ chunks.enum.map fun p =>
      build_chunk_context_header doc.metadata (some (p.1 + 1)) ++ "\n" ++ p.2
  else
    result ++ [content]

/-- `_chunk_markdown(markdown_text, max_tokens)` from `scripts/chunk.py`,
applied to the section list `docs` produced by the (injected) markdown header
splitter. -/
def chunk_markdown (encLen : String → Nat) (sentTok : String → List String)
    (docs : List SectionDoc) (max_tokens : Nat) : List String :=
  docs.foldl (markdownStep encLen sentTok max_tokens) []

/-- `markdownStep` only appends to the accumulated result list. -/
lemma markdownStep_append (e : String → Nat) (s : String → List String) (m : Nat)
    (r : List String) (d : SectionDoc) :
    markdownStep e s m r d = r ++ markdownStep e s m [] d := by
  simp only [markdownStep]
  split <;> simp

/-- The section loop of `_chunk_markdown` is the concatenation of the chunks
emitted per section, in document order. -/
lemma foldl_markdownStep (e : String → Nat) (s : String → List String) (m : Nat) :
    ∀ (docs : List SectionDoc) (r : List String),
      docs.foldl (markdownStep e s m) r = r ++ docs.flatMap (markdownStep e s m []) := by
  intro docs
  induction docs with
  | nil => intro r; simp
  | cons d ds ih =>
    intro r
    simp only [List.foldl_cons, List.flatMap_cons]
    rw [markdownStep_append, ih, List.append_assoc]

/-- Concrete tokenizer for counterexamples: one token per character. -/
def charTok (s : String) : Nat := s.length

/-- Concrete sentence splitter used for the C1 failing input: splits the
two-sentence body into its sentences, like the nltk splitter would. -/
def sentTokEx1 (t : String) : List String :=
  if t = "Aaaa. Bbbb." then ["Aaaa.", "Bbbb."] else [t]

/-- Failing input for C1: a section with a two-token header and a body of two
five-token sentences, under a budget of 10. -/
def docEx1 : SectionDoc :=
  { metadata := { h1 := some "HH", h2 := none, h3 := none },
    page_content := "Aaaa. Bbbb." }

/-- C1: the claimed invariant "every chunk's encoded token count (header plus
body) is at most maxTokens unless the body is a single oversized sentence"
fails on the code: the sentence-packing loop budgets only the body tokens, so
the emitted chunk `"HH - part 1\nAaaa. Bbbb."` has 23 tokens under a budget
of 10 although its body consists of two sentences of 5 tokens each, neither
of which exceeds the budget. -/
theorem claim_C1_failing_eval :
    chunk_markdown charTok sentTokEx1 [docEx1] 10 = ["HH - part 1\nAaaa. Bbbb."] ∧
    charTok "HH - part 1\nAaaa. Bbbb." = 23 ∧
    sentTokEx1 docEx1.page_content = ["Aaaa.", "Bbbb."] ∧
    (∀ sentence ∈ sentTokEx1 docEx1.page_content, charTok sentence ≤ 10) := by
  decide

/-- Section used for the C10 instance: oversized section whose single
sentence alone exceeds the budget. -/
def docEx2 : SectionDoc :=
  { metadata := { h1 := some "H", h2 := none, h3 := none },
    page_content := "abcdefgh" }

/-- C10: when the first sentence of an oversized section itself exceeds
`maxTokens`, the sentence-packing loop closes the still-empty current run, so
an empty-body chunk is emitted as the section's `part 1` sub-chunk before the
oversized sentence starts the next run. -/
theorem claim_C10_empty_body_chunk :
    chunk_markdown charTok (fun t => [t]) [docEx2] 3 =
      ["H - part 1\n", "H - part 2\nabcdefgh"] ∧
    "H - part 1\n" = build_chunk_context_header docEx2.metadata (some 1) ++ "\n" ++ "" ∧
    charTok docEx2.page_content > 3 := by
  decide

/-- C7: `_chunk_markdown` emits, for each section in document order, a single
header-prefixed chunk when the header-plus-content token count fits, and
otherwise one chunk per sentence run in sentence order, each prefixed by the
section's context header followed by the literal suffix `" - part N"` with N
the 1-based position of the run among the section's sub-chunks. -/
theorem claim_C7_part_numbering (e : String → Nat) (s : String → List String)
    (m : Nat) (docs : List SectionDoc) :
    chunk_markdown e s docs m = docs.flatMap (fun doc =>
      let header := build_chunk_context_header doc.metadata none
      let content := header ++ "\n" ++ doc.page_content
      if e content > m then
        (chunk_text_by_sentences e s doc.page_content m).enum.map
          (fun p => header ++ " - part " ++ Nat.repr (p.1 + 1) ++ "\n" ++ p.2)
      else [content]) := by
  unfold chunk_markdown
  rw [foldl_markdownStep]
  rfl

/-- The non-whitespace characters of a string, in order.  Two texts that
agree under `nonWS` differ only in whitespace. -/
def nonWS (s : String) : List Char := s.data.filter (fun c => !c.isWhitespace)

lemma nonWS_append (a b : String) : nonWS (a ++ b) = nonWS a ++ nonWS b := by
  simp [nonWS, String.data_append, List.filter_append]

lemma nonWS_space : nonWS " " = [] := by decide

lemma nonWS_joinSp : ∀ l : List String, nonWS (joinSp l) = (l.map nonWS).flatten := by
  intro l
  induction l with
  | nil => rfl
  | cons s rest ih =>
    cases rest with
    | nil => simp [joinSp]
    | cons t ts =>
      rw [show joinSp (s :: t :: ts) = s ++ " " ++ joinSp (t :: ts) from rfl,
        nonWS_append, nonWS_append, nonWS_space]
      simp [ih]

/-- Invariant of the sentence-packing loop: the non-whitespace content of the
finished chunks plus the pending run equals the initial content plus the
non-whitespace content of the consumed sentences, in order. -/
lemma sentStep_nonWS_invariant (e : String → Nat) (m : Nat) :
    ∀ (ss : List String) (st : SentState),
      (((ss.foldl (sentStep e m) st).chunks.map nonWS).flatten ++
        ((ss.foldl (sentStep e m) st).current_chunk.map nonWS).flatten) =
      (st.chunks.map nonWS).flatten ++ (st.current_chunk.map nonWS).flatten ++
        (ss.map nonWS).flatten := by
  intro ss
  induction ss with
  | nil => intro st; simp
  | cons s rest ih =>
    intro st
    simp only [List.foldl_cons]
    rw [ih]
    simp only [sentStep]
    split
    · simp [nonWS_joinSp, List.append_assoc]
    · simp [List.append_assoc]

/-- The sentence runs produced by `_chunk_text_by_sentences` contain exactly
the non-whitespace content of the sentences, in order. -/
lemma chunk_text_by_sentences_nonWS (e : String → Nat) (s : String → List String)
    (t : String) (m : Nat) :
    ((chunk_text_by_sentences e s t m).map nonWS).flatten = ((s t).map nonWS).flatten := by
  unfold chunk_text_by_sentences
  have h := sentStep_nonWS_invariant e m (s t)
    { chunks := [], current_chunk := [], current_tokens := 0 }
  simp only []
  split
  · simpa [nonWS_joinSp] using h
  · next hc =>
    rw [not_not] at hc
    simpa [hc] using h

/-- The bodies of the chunks one section contributes: the section content
itself when the section fits, its sentence runs otherwise. -/
def sectionBodies (e : String → Nat) (s : String → List String) (m : Nat)
    (doc : SectionDoc) : List String :=
  if e (build_chunk_context_header doc.metadata none ++ "\n" ++ doc.page_content) > m then
    chunk_text_by_sentences e s doc.page_content m
  else [doc.page_content]

/-- The injected context headers of the chunks one section contributes: the
plain context header when the section fits, the part-numbered headers
otherwise. -/
def sectionHeaders (e : String → Nat) (s : String → List String) (m : Nat)
    (doc : SectionDoc) : List String :=
  if e (build_chunk_context_header doc.metadata none ++ "\n" ++ doc.page_content) > m then
    (chunk_text_by_sentences e s doc.page_content m).enum.map
      (fun p => build_chunk_context_header doc.metadata (some (p.1 + 1)))
  else [build_chunk_context_header doc.metadata none]

/-- The injected context headers of all chunks, in emission order. -/
def chunkHeaders (e : String → Nat) (s : String → List String) (m : Nat)
    (docs : List SectionDoc) : List String :=
  docs.flatMap (sectionHeaders e s m)

/-- The bodies of all chunks, in emission order. -/
def chunkBodies (e : String → Nat) (s : String → List String) (m : Nat)
    (docs : List SectionDoc) : List String :=
  docs.flatMap (sectionBodies e s m)

lemma zipWith_map_same {α γ δ β : Type} (f : α → γ) (g : α → δ) (h : γ → δ → β) :
    ∀ l : List α, List.zipWith h (l.map f) (l.map g) = l.map fun x => h (f x) (g x) := by
  intro l
  induction l with
  | nil => rfl
  | cons x xs ih => simp [ih]

lemma zipWith_enumFrom_map {σ γ β : Type} (f : Nat × σ → γ) (h : γ → σ → β) :
    ∀ (l : List σ) (k : Nat),
      List.zipWith h ((List.enumFrom k l).map f) l =
        (List.enumFrom k l).map fun p => h (f p) p.2 := by
  intro l
  induction l with
  | nil => intro k; rfl
  | cons x xs ih => intro k; simp [List.enumFrom, ih]

lemma zipWith_enum_map {σ γ β : Type} (l : List σ) (f : Nat × σ → γ) (h : γ → σ → β) :
    List.zipWith h (l.enum.map f) l = l.enum.map fun p => h (f p) p.2 :=
  zipWith_enumFrom_map f h l 0

lemma length_sectionHeaders_eq (e : String → Nat) (s : String → List String) (m : Nat)
    (doc : SectionDoc) :
    (sectionHeaders e s m doc).length = (sectionBodies e s m doc).length := by
  unfold sectionHeaders sectionBodies
  split <;> simp

/-- Re-attaching each chunk's header to its body with a newline reproduces the
chunks one section contributes. -/
lemma section_render (e : String → Nat) (s : String → List String) (m : Nat)
    (doc : SectionDoc) :
    List.zipWith (fun h b => h ++ "\n" ++ b)
      (sectionHeaders e s m doc) (sectionBodies e s m doc) =
    markdownStep e s m [] doc := by
  unfold sectionHeaders sectionBodies markdownStep
  simp only []
  split
  · rw [zipWith_enum_map]
    rfl
  · rfl

lemma zipWith_render_flatMap (e : String → Nat) (s : String → List String) (m : Nat) :
    ∀ docs : List SectionDoc,
      List.zipWith (fun h b => h ++ "\n" ++ b)
        (chunkHeaders e s m docs) (chunkBodies e s m docs) =
      docs.flatMap (markdownStep e s m []) := by
  intro docs
  induction docs with
  | nil => rfl
  | cons d ds ih =>
    unfold chunkHeaders chunkBodies at *
    simp only [List.flatMap_cons]
    rw [List.zipWith_append _ _ _ _ _ (length_sectionHeaders_eq e s m d), ih,
      section_render]

/-- C3: each emitted chunk is an injected header, a newline, and a body, and
the bodies concatenated in order carry exactly the non-whitespace content of
the section bodies in document order: stripping the headers reconstructs the
original body text up to whitespace, provided sentence splitting itself only
loses whitespace. -/
theorem claim_C3_reconstruction (e : String → Nat) (s : String → List String)
    (m : Nat) (docs : List SectionDoc)
    (hsent : ∀ t, ((s t).map nonWS).flatten = nonWS t) :
    chunk_markdown e s docs m =
      List.zipWith (fun h b => h ++ "\n" ++ b)
        (chunkHeaders e s m docs) (chunkBodies e s m docs) ∧
    ((chunkBodies e s m docs).map nonWS).flatten =
      ((docs.map SectionDoc.page_content).map nonWS).flatten := by
  constructor
  · rw [zipWith_render_flatMap]
    unfold chunk_markdown
    rw [foldl_markdownStep]
    rfl
  · induction docs with
    | nil => rfl
    | cons d ds ih =>
      unfold chunkBodies at *
      simp only [List.flatMap_cons, List.map_cons, List.map_append,
        List.flatten_cons, List.flatten_append]
      rw [ih]
      congr 1
      unfold sectionBodies
      split
      · rw [chunk_text_by_sentences_nonWS, hsent]
      · simp

/-- Section used for the C3 witness. -/
def docEx3 : SectionDoc :=
  { metadata := { h1 := some "T", h2 := none, h3 := none },
    page_content := "Hello world." }

/-- Witness for C3 at a concrete input. -/
theorem claim_C3_witness :
    chunk_markdown charTok (fun t => [t]) [docEx3] 5 =
      List.zipWith (fun h b => h ++ "\n" ++ b)
        (chunkHeaders charTok (fun t => [t]) 5 [docEx3])
        (chunkBodies charTok (fun t => [t]) 5 [docEx3]) ∧
    ((chunkBodies charTok (fun t => [t]) 5 [docEx3]).map nonWS).flatten =
      (([docEx3].map SectionDoc.page_content).map nonWS).flatten :=
  claim_C3_reconstruction charTok (fun t => [t]) 5 [docEx3] (fun t => by simp)

/-- JSON-like values: the shape of the parsed tag-generator responses and of
the raw tag payloads handled by `generate_tags.py`. -/
inductive JsonVal where
  | jnull : JsonVal
  | jbool : Bool → JsonVal
  | jnum : Int → JsonVal
  | jstr : String → JsonVal
  | jarr : List JsonVal → JsonVal
  | jobj : List (String × JsonVal) → JsonVal

/-- The character class kept by `re.sub(r"[^a-z0-9_]", "", tag)`. -/
def isTagChar (c : Char) : Bool :=
  (decide (97 ≤ c.toNat) && decide (c.toNat ≤ 122)) ||
  (decide (48 ≤ c.toNat) && decide (c.toNat ≤ 57)) || (c == '_')

/-- The character substitution of `tag.replace("-", "_").replace(" ", "_")`. -/
def underscoreSpaces (c : Char) : Char :=
  if c = '-' then '_' else if c = ' ' then '_' else c

/-- `re.sub(r"_+", "_", tag)`: collapse each maximal run of underscores to a
single underscore. -/
def collapseUnderscores : List Char → List Char
  | [] => []
  | c :: rest =>
    match rest with
    | [] => [c]
    | c2 :: _ =>
      if c = '_' ∧ c2 = '_' then collapseUnderscores rest
      else c :: collapseUnderscores rest

/-- Remove the characters satisfying `p` from both ends of the list (the
shape of Python's `str.strip`). -/
def dropEdgeWhile (p : Char → Bool) (l : List Char) : List Char :=
  ((l.dropWhile p).reverse.dropWhile p).reverse

/-- Python `item.strip()`. -/
def pyStrip (l : List Char) : List Char := dropEdgeWhile Char.isWhitespace l

/-- Python `tag.strip("_")`. -/
def stripUnderscores (l : List Char) : List Char := dropEdgeWhile (fun c => c == '_') l

/-- The per-item normalization of `_sanitize_tags` from
`scripts/generate_tags.py`: strip, lowercase, underscore spaces and hyphens,
drop disallowed characters, collapse underscore runs, strip edge
underscores. -/
def normalizeTag (s : String) : String :=
  String.mk (stripUnderscores (collapseUnderscores (List.filter isTagChar
    (List.map underscoreSpaces (List.map Char.toLower (pyStrip s.data))))))

/-- Loop body of `_sanitize_tags`: non-strings are skipped, empty or
already-seen normalized tags are skipped, fresh tags are appended (the `seen`
set always equals the set of elements of `result`). -/
def sanitizeStep (result : List String) (item : JsonVal) : List String :=
  match item with
  | JsonVal.jstr s =>
    let tag := normalizeTag s
    if tag = "" ∨ tag ∈ result then result else result ++ [tag]
  | _ => result

/-- `_sanitize_tags(raw_tags)` from `scripts/generate_tags.py`: non-list
inputs yield `[]`; list inputs are folded through `sanitizeStep`. -/
def sanitize_tags (raw : JsonVal) : List String :=
  match raw with
  | JsonVal.jarr items => items.foldl sanitizeStep []
  | _ => []

lemma tagChar_range (c : Char) (h : isTagChar c = true) :
    (97 ≤ c.toNat ∧ c.toNat ≤ 122) ∨ (48 ≤ c.toNat ∧ c.toNat ≤ 57) ∨ c = '_' := by
  unfold isTagChar at h
  simp only [Bool.or_eq_true, Bool.and_eq_true, decide_eq_true_eq, beq_iff_eq] at h
  tauto

lemma isTagChar_not_ws (c : Char) (h : isTagChar c = true) : c.isWhitespace = false := by
  have hr := tagChar_range c h
  unfold Char.isWhitespace
  simp only [Bool.or_eq_false_iff, decide_eq_false_iff_not]
  refine ⟨⟨⟨?_, ?_⟩, ?_⟩, ?_⟩ <;>
    (intro he; subst he; exact absurd hr (by decide))

lemma isTagChar_toLower (c : Char) (h : isTagChar c = true) : c.toLower = c := by
  have hr := tagChar_range c h
  have h45 : ¬(c.toNat ≥ 65 ∧ c.toNat ≤ 90) := by
    rcases hr with h | h | h
    · omega
    · omega
    · subst h; decide
  unfold Char.toLower
  simp only []
  rw [if_neg h45]

lemma isTagChar_underscoreSpaces (c : Char) (h : isTagChar c = true) :
    underscoreSpaces c = c := by
  have hr := tagChar_range c h
  have h1 : c ≠ '-' := by intro he; subst he; exact absurd hr (by decide)
  have h2 : c ≠ ' ' := by intro he; subst he; exact absurd hr (by decide)
  unfold underscoreSpaces
  rw [if_neg h1, if_neg h2]

lemma mem_collapseUnderscores : ∀ (l : List Char), ∀ c ∈ collapseUnderscores l, c ∈ l := by
  intro l
  induction l with
  | nil => intro c hc; exact absurd hc (by simp [collapseUnderscores])
  | cons a rest ih =>
    cases rest with
    | nil => intro c hc; simpa [collapseUnderscores] using hc
    | cons b r2 =>
      intro c hc
      rw [collapseUnderscores] at hc
      split at hc
      · exact List.mem_cons_of_mem a (ih c hc)
      · rcases List.mem_cons.mp hc with h | h
        · exact h ▸ List.mem_cons_self a _
        · exact List.mem_cons_of_mem a (ih c h)

lemma collapseUnderscores_head? :
    ∀ (rest : List Char) (a : Char), (collapseUnderscores (a :: rest)).head? = some a := by
  intro rest
  induction rest with
  | nil => intro a; rfl
  | cons b r2 ih =>
    intro a
    rw [collapseUnderscores]
    split
    · next h => rw [ih b, h.1, h.2]
    · rfl

lemma collapseUnderscores_chain :
    ∀ l : List Char,
      List.Chain' (fun x y => ¬(x = '_' ∧ y = '_')) (collapseUnderscores l) := by
  intro l
  induction l with
  | nil => simp [collapseUnderscores]
  | cons a rest ih =>
    cases rest with
    | nil => simp [collapseUnderscores]
    | cons b r2 =>
      rw [collapseUnderscores]
      split
      · exact ih
      · next h =>
        rw [List.chain'_cons']
        refine ⟨?_, ih⟩
        intro y hy
        rw [Option.mem_def, collapseUnderscores_head?] at hy
        cases hy
        exact h

lemma collapseUnderscores_eq_self :
    ∀ l : List Char,
      List.Chain' (fun x y => ¬(x = '_' ∧ y = '_')) l → collapseUnderscores l = l := by
  intro l
  induction l with
  | nil => intro _; rfl
  | cons a rest ih =>
    cases rest with
    | nil => intro _; rfl
    | cons b r2 =>
      intro h
      rw [List.chain'_cons'] at h
      rw [collapseUnderscores, if_neg (h.1 b rfl)]
      rw [ih h.2]

/-- The two-sided strip extends to the one-sided strip by a trailing run of
stripped characters. -/
lemma dropEdgeWhile_append (p : Char → Bool) (l : List Char) :
    dropEdgeWhile p l ++ ((l.dropWhile p).reverse.takeWhile p).reverse =
      l.dropWhile p := by
  unfold dropEdgeWhile
  rw [← List.reverse_append, List.takeWhile_append_dropWhile, List.reverse_reverse]

lemma mem_dropWhile {α : Type} (p : α → Bool) (l : List α) (c : α)
    (h : c ∈ l.dropWhile p) : c ∈ l := by
  rw [← List.takeWhile_append_dropWhile p l]
  exact List.mem_append_right _ h

lemma mem_dropEdgeWhile (p : Char → Bool) (l : List Char) (c : Char)
    (h : c ∈ dropEdgeWhile p l) : c ∈ l := by
  apply mem_dropWhile p l c
  rw [← dropEdgeWhile_append p l]
  exact List.mem_append_left _ h

lemma chain'_dropWhile {α : Type} {R : α → α → Prop} (p : α → Bool) (l : List α)
    (h : List.Chain' R l) : List.Chain' R (l.dropWhile p) := by
  rw [← List.takeWhile_append_dropWhile p l] at h
  exact (List.chain'_append.mp h).2.1

lemma chain'_dropEdgeWhile {R : Char → Char → Prop} (p : Char → Bool) (l : List Char)
    (h : List.Chain' R l) : List.Chain' R (dropEdgeWhile p l) := by
  have hm : List.Chain' R (l.dropWhile p) := chain'_dropWhile p l h
  rw [← dropEdgeWhile_append p l] at hm
  exact (List.chain'_append.mp hm).1

lemma head?_dropWhile {α : Type} (p : α → Bool) :
    ∀ (l : List α) (y : α), (l.dropWhile p).head? = some y → p y = false := by
  intro l
  induction l with
  | nil => intro y h; exact absurd h (by simp [List.dropWhile])
  | cons a tl ih =>
    intro y h
    rw [List.dropWhile_cons] at h
    split at h
    · exact ih y h
    · next hpa =>
      cases h
      simpa using hpa

lemma head?_append_some {α : Type} {l t : List α} {y : α}
    (h : l.head? = some y) : (l ++ t).head? = some y := by
  cases l with
  | nil => exact absurd h (by simp)
  | cons a tl => simpa using h

lemma dropEdgeWhile_head (p : Char → Bool) (l : List Char) (y : Char)
    (h : (dropEdgeWhile p l).head? = some y) : p y = false := by
  have h2 := head?_append_some
    (t := ((l.dropWhile p).reverse.takeWhile p).reverse) h
  rw [dropEdgeWhile_append] at h2
  exact head?_dropWhile p l y h2

lemma dropEdgeWhile_getLast (p : Char → Bool) (l : List Char) (y : Char)
    (h : (dropEdgeWhile p l).getLast? = some y) : p y = false := by
  unfold dropEdgeWhile at h
  rw [List.getLast?_reverse] at h
  exact head?_dropWhile p _ y h

lemma dropEdgeWhile_eq_self_of_all (p : Char → Bool) (l : List Char)
    (h : ∀ c ∈ l, p c = false) : dropEdgeWhile p l = l := by
  unfold dropEdgeWhile
  have h1 : l.dropWhile p = l := by
    cases l with
    | nil => rfl
    | cons a tl => rw [List.dropWhile_cons, if_neg]; simp [h a (List.mem_cons_self a tl)]
  rw [h1]
  have h2 : l.reverse.dropWhile p = l.reverse := by
    cases hr : l.reverse with
    | nil => rfl
    | cons a tl =>
      rw [List.dropWhile_cons, if_neg]
      have ha : a ∈ l := by
        rw [← List.mem_reverse, hr]; exact List.mem_cons_self a tl
      simp [h a ha]
  rw [h2, List.reverse_reverse]

lemma dropEdgeWhile_eq_self_of_edges (p : Char → Bool) (l : List Char)
    (hh : ∀ y, l.head? = some y → p y = false)
    (hl : ∀ y, l.getLast? = some y → p y = false) : dropEdgeWhile p l = l := by
  unfold dropEdgeWhile
  have h1 : l.dropWhile p = l := by
    cases l with
    | nil => rfl
    | cons a tl => rw [List.dropWhile_cons, if_neg]; simp [hh a rfl]
  rw [h1]
  have h2 : l.reverse.dropWhile p = l.reverse := by
    cases hr : l.reverse with
    | nil => rfl
    | cons a tl =>
      rw [List.dropWhile_cons, if_neg]
      have ha : l.getLast? = some a := by
        rw [← List.head?_reverse, hr]; rfl
      simp [hl a ha]
  rw [h2, List.reverse_reverse]

/-- Every character of a normalized tag is in the allowed class. -/
lemma normalizeTag_all (s : String) : ∀ c ∈ (normalizeTag s).data, isTagChar c = true := by
  intro c hc
  have h1 : c ∈ collapseUnderscores (List.filter isTagChar
      (List.map underscoreSpaces (List.map Char.toLower (pyStrip s.data)))) :=
    mem_dropEdgeWhile _ _ c hc
  have h2 := mem_collapseUnderscores _ c h1
  exact (List.mem_filter.mp h2).2

/-- A normalized tag has no two consecutive underscores. -/
lemma normalizeTag_chain (s : String) :
    List.Chain' (fun x y => ¬(x = '_' ∧ y = '_')) (normalizeTag s).data :=
  chain'_dropEdgeWhile _ _ (collapseUnderscores_chain _)

/-- A normalized tag does not start with an underscore. -/
lemma normalizeTag_head (s : String) :
    ∀ y, (normalizeTag s).data.head? = some y → y ≠ '_' := by
  intro y hy
  have := dropEdgeWhile_head (fun c => c == '_') _ y hy
  simpa using this

/-- A normalized tag does not end with an underscore. -/
lemma normalizeTag_getLast (s : String) :
    ∀ y, (normalizeTag s).data.getLast? = some y → y ≠ '_' := by
  intro y hy
  have := dropEdgeWhile_getLast (fun c => c == '_') _ y hy
  simpa using this

/-- Strings already in canonical form are fixed points of `normalizeTag`. -/
lemma normalizeTag_fixed (s : String)
    (hall : ∀ c ∈ s.data, isTagChar c = true)
    (hchain : List.Chain' (fun x y => ¬(x = '_' ∧ y = '_')) s.data)
    (hhead : ∀ y, s.data.head? = some y → y ≠ '_')
    (hlast : ∀ y, s.data.getLast? = some y → y ≠ '_') :
    normalizeTag s = s := by
  unfold normalizeTag pyStrip
  have e1 : dropEdgeWhile Char.isWhitespace s.data = s.data :=
    dropEdgeWhile_eq_self_of_all _ _ (fun c hc => isTagChar_not_ws c (hall c hc))
  rw [e1]
  have e2 : List.map Char.toLower s.data = s.data := by
    simpa using List.map_congr_left (fun c hc => isTagChar_toLower c (hall c hc))
  rw [e2]
  have e3 : List.map underscoreSpaces s.data = s.data := by
    simpa using
      List.map_congr_left (fun c hc => isTagChar_underscoreSpaces c (hall c hc))
  rw [e3]
  rw [List.filter_eq_self.mpr hall]
  rw [collapseUnderscores_eq_self _ hchain]
  unfold stripUnderscores
  rw [dropEdgeWhile_eq_self_of_edges _ _
    (fun y hy => by simpa using hhead y hy) (fun y hy => by simpa using hlast y hy)]

/-- `normalizeTag` is idempotent. -/
lemma normalizeTag_idem (s : String) : normalizeTag (normalizeTag s) = normalizeTag s :=
  normalizeTag_fixed _ (normalizeTag_all s) (normalizeTag_chain s)
    (normalizeTag_head s) (normalizeTag_getLast s)

/-- Every element the sanitizer fold produces is either carried over from the
accumulator or is a non-empty normalized tag. -/
lemma mem_foldl_sanitizeStep :
    ∀ (items : List JsonVal) (acc : List String) (tag : String),
      tag ∈ items.foldl sanitizeStep acc →
      tag ∈ acc ∨ ∃ s, tag = normalizeTag s ∧ tag ≠ "" := by
  intro items
  induction items with
  | nil => intro acc tag h; exact Or.inl h
  | cons it rest ih =>
    intro acc tag h
    rcases ih _ tag h with hacc | hnew
    · cases it with
      | jstr s =>
        simp only [sanitizeStep] at hacc
        split at hacc
        · exact Or.inl hacc
        · next hcond =>
          rcases List.mem_append.mp hacc with h1 | h1
          · exact Or.inl h1
          · right
            refine ⟨s, List.mem_singleton.mp h1, ?_⟩
            rw [List.mem_singleton.mp h1]
            intro he
            exact hcond (Or.inl he)
      | jnull => exact Or.inl hacc
      | jbool b => exact Or.inl hacc
      | jnum i => exact Or.inl hacc
      | jarr l => exact Or.inl hacc
      | jobj l => exact Or.inl hacc
    · exact Or.inr hnew

/-- The sanitizer fold preserves `Nodup`. -/
lemma nodup_foldl_sanitizeStep :
    ∀ (items : List JsonVal) (acc : List String),
      acc.Nodup → (items.foldl sanitizeStep acc).Nodup := by
  intro items
  induction items with
  | nil => intro acc h; exact h
  | cons it rest ih =>
    intro acc h
    refine ih _ ?_
    cases it with
    | jstr s =>
      simp only [sanitizeStep]
      split
      · exact h
      · next hcond =>
        rw [List.nodup_append]
        refine ⟨h, List.nodup_singleton _, ?_⟩
        intro a ha hb
        rw [List.mem_singleton.mp hb] at ha
        exact hcond (Or.inr ha)
    | jnull => exact h
    | jbool b => exact h
    | jnum i => exact h
    | jarr l => exact h
    | jobj l => exact h

lemma sanitize_tags_nodup (raw : JsonVal) : (sanitize_tags raw).Nodup := by
  cases raw with
  | jarr items => exact nodup_foldl_sanitizeStep items [] List.nodup_nil
  | jnull => exact List.nodup_nil
  | jbool b => exact List.nodup_nil
  | jnum i => exact List.nodup_nil
  | jstr s => exact List.nodup_nil
  | jobj l => exact List.nodup_nil

lemma sanitize_tags_mem (raw : JsonVal) :
    ∀ tag ∈ sanitize_tags raw, ∃ s, tag = normalizeTag s ∧ tag ≠ "" := by
  intro tag h
  cases raw with
  | jarr items =>
    rcases mem_foldl_sanitizeStep items [] tag h with h1 | h1
    · exact absurd h1 (List.not_mem_nil tag)
    · exact h1
  | jnull => exact absurd h (List.not_mem_nil tag)
  | jbool b => exact absurd h (List.not_mem_nil tag)
  | jnum i => exact absurd h (List.not_mem_nil tag)
  | jstr s => exact absurd h (List.not_mem_nil tag)
  | jobj l => exact absurd h (List.not_mem_nil tag)

/-- C8: every sanitized tag is non-empty, built only from `[a-z0-9_]`, has no
leading, trailing, or doubled underscore; the output list has no duplicates;
and `sanitize(["Python", "python", "PYTHON"]) = ["python"]`. -/
theorem claim_C8_sanitizer (raw : JsonVal) :
    (∀ tag ∈ sanitize_tags raw,
      tag ≠ "" ∧ (∀ c ∈ tag.data, isTagChar c = true) ∧
      (∀ y, tag.data.head? = some y → y ≠ '_') ∧
      (∀ y, tag.data.getLast? = some y → y ≠ '_') ∧
      List.Chain' (fun x y => ¬(x = '_' ∧ y = '_')) tag.data) ∧
    (sanitize_tags raw).Nodup ∧
    sanitize_tags (JsonVal.jarr [JsonVal.jstr "Python", JsonVal.jstr "python",
      JsonVal.jstr "PYTHON"]) = ["python"] := by
  refine ⟨?_, sanitize_tags_nodup raw, by decide⟩
  intro tag h
  obtain ⟨s, rfl, hne⟩ := sanitize_tags_mem raw tag h
  exact ⟨hne, normalizeTag_all s, normalizeTag_head s, normalizeTag_getLast s,
    normalizeTag_chain s⟩

/-- Witness for C8 at a concrete input. -/
theorem claim_C8_witness :
    ("python" ≠ "" ∧ (∀ c ∈ "python".data, isTagChar c = true) ∧
      (∀ y, "python".data.head? = some y → y ≠ '_') ∧
      (∀ y, "python".data.getLast? = some y → y ≠ '_') ∧
      List.Chain' (fun x y => ¬(x = '_' ∧ y = '_')) "python".data) ∧
    (sanitize_tags (JsonVal.jarr [JsonVal.jstr "Python"])).Nodup :=
  ⟨(claim_C8_sanitizer (JsonVal.jarr [JsonVal.jstr "Python"])).1 "python" (by decide),
   (claim_C8_sanitizer (JsonVal.jarr [JsonVal.jstr "Python"])).2.1⟩

/-- Feeding a list of fixed, distinct, non-empty tags back through the
sanitizer fold appends them all unchanged. -/
lemma foldl_sanitizeStep_fixed :
    ∀ (ts : List String) (acc : List String),
      (∀ t ∈ ts, normalizeTag t = t ∧ t ≠ "" ∧ t ∉ acc) → ts.Nodup →
      (ts.map JsonVal.jstr).foldl sanitizeStep acc = acc ++ ts := by
  intro ts
  induction ts with
  | nil => intro acc _ _; simp
  | cons t ts2 ih =>
    intro acc hts hnd
    obtain ⟨hfix, hne, hnotin⟩ := hts t (List.mem_cons_self t ts2)
    have hstep : sanitizeStep acc (JsonVal.jstr t) = acc ++ [t] := by
      simp only [sanitizeStep, hfix]
      rw [if_neg]
      intro hc
      rcases hc with hc | hc
      · exact hne hc
      · exact hnotin hc
    simp only [List.map_cons, List.foldl_cons, hstep]
    rw [ih (acc ++ [t]) ?_ (List.Nodup.of_cons hnd)]
    · simp
    · intro u hu
      obtain ⟨hufix, hune, hunotin⟩ := hts u (List.mem_cons_of_mem t hu)
      refine ⟨hufix, hune, ?_⟩
      intro hmem
      rcases List.mem_append.mp hmem with h1 | h1
      · exact hunotin h1
      · rw [List.mem_singleton.mp h1] at hu
        exact (List.nodup_cons.mp hnd).1 hu

/-- C9: the sanitizer is idempotent. -/
theorem claim_C9_idempotent (x : JsonVal) :
    sanitize_tags (JsonVal.jarr ((sanitize_tags x).map JsonVal.jstr)) =
      sanitize_tags x := by
  have h1 : sanitize_tags (JsonVal.jarr ((sanitize_tags x).map JsonVal.jstr)) =
      ((sanitize_tags x).map JsonVal.jstr).foldl sanitizeStep [] := rfl
  rw [h1, foldl_sanitizeStep_fixed (sanitize_tags x) [] ?_ (sanitize_tags_nodup x)]
  · simp
  · intro t ht
    obtain ⟨s, rfl, hne⟩ := sanitize_tags_mem x t ht
    exact ⟨normalizeTag_idem s, hne, List.not_mem_nil _⟩

/-- Whether a parsed JSON value is an object (`isinstance(item, dict)`). -/
def isJObj : JsonVal → Bool
  | JsonVal.jobj _ => true
  | _ => false

/-- Estimated tokens for system prompt, user prompt instructions, and
response formatting (`generate_tags.py`). -/
def FIXED_OVERHEAD_TOKENS : Nat := 800

/-- Estimated token overhead for each item's metadata in the batch prompt
(`generate_tags.py`). -/
def PER_ITEM_OVERHEAD_TOKENS : Nat := 24

/-- `MAX_INPUT_BUDGET = max(1024, INPUT_MAX_TOKENS - FIXED_OVERHEAD_TOKENS)`.
Natural subtraction truncates at 0 exactly where Python's subtraction goes
negative; `max 1024` yields the same value in both readings. -/
def MAX_INPUT_BUDGET (INPUT_MAX_TOKENS : Nat) : Nat :=
  max 1024 (INPUT_MAX_TOKENS - FIXED_OVERHEAD_TOKENS)

/-- One step of the object-form response loop of `flush_batch`: a response
object with an integer `index` in `[0, n)` overwrites that result position
with its sanitized `tags`; anything else is ignored. -/
def objItemStep (n : Nat) (res : List (List String)) (it : JsonVal) : List (List String) :=
  match it with
  | JsonVal.jobj f =>
    match f.lookup "index" with
    | some (JsonVal.jnum i) =>
      if 0 ≤ i ∧ i < (n : Int) then
        res.set i.toNat (sanitize_tags ((f.lookup "tags").getD (JsonVal.jarr [])))
      else res
    | _ => res
  | _ => res

/-- One step of the positional-form response loop of `flush_batch`: the j-th
raw tag list overwrites the position of the j-th batch index, when there is
one. -/
def posItemStep (batch_indices : List Nat) (res : List (List String))
    (p : Nat × JsonVal) : List (List String) :=
  if p.1 < batch_indices.length then
    res.set (batch_indices.getD p.1 0) (sanitize_tags p.2)
  else res

/-- `flush_batch(batch_indices)` from `batch_generate_tags` in
`scripts/generate_tags.py`.  The opaque LLM call plus JSON parsing is the
injected `oracle`: `none` models an exception raised during the call (caught:
no result position is touched), `some data` the parsed response object.  A
response that is not an object, whose `results` field is not a list, or whose
items are malformed likewise touches nothing. -/
def flush_batch (oracle : List Nat → Option JsonVal) (n : Nat)
    (batch_indices : List Nat) (results : List (List String)) : List (List String) :=
  if batch_indices = [] then results
  else
    match oracle batch_indices with
    | none => results
    | some data =>
      match data with
      | JsonVal.jobj fields =>
        match (fields.lookup "results").getD (JsonVal.jarr []) with
        | JsonVal.jarr raw_results =>
          if raw_results.any isJObj then
            raw_results.foldl (objItemStep n) results
          else
            raw_results.enum.foldl (posItemStep batch_indices) results
        | _ => results
      | _ => results

/-- The result positions the object-form loop writes, in write order. -/
def objItemWrites (n : Nat) (acc : List Nat) (it : JsonVal) : List Nat :=
  match it with
  | JsonVal.jobj f =>
    match f.lookup "index" with
    | some (JsonVal.jnum i) =>
      if 0 ≤ i ∧ i < (n : Int) then acc ++ [i.toNat] else acc
    | _ => acc
  | _ => acc

/-- The result positions `flush_batch` writes for a given parsed response
(or exception), mirroring its branch structure. -/
def respWrites (n : Nat) (batch_indices : List Nat) : Option JsonVal → List Nat
  | none => []
  | some data =>
    match data with
    | JsonVal.jobj fields =>
      match (fields.lookup "results").getD (JsonVal.jarr []) with
      | JsonVal.jarr raw_results =>
        if raw_results.any isJObj then raw_results.foldl (objItemWrites n) []
        else
          (raw_results.enum.filter (fun p => decide (p.1 < batch_indices.length))).map
            (fun p => batch_indices.getD p.1 0)
      | _ => []
    | _ => []

/-- One step of the packing loop of `batch_generate_tags`, acting on the
state `(results, batch, batch_tokens)`: when the batch is non-empty and the
item would overflow the budget, the batch is flushed and the item starts a
new batch; otherwise the item joins the current batch. -/
def batchStep (oracle : List Nat → Option JsonVal) (n budget : Nat) (counts : List Nat)
    (st : List (List String) × List Nat × Nat) (idx : Nat) :
    List (List String) × List Nat × Nat :=
  let item_tokens := counts.getD idx 0 + PER_ITEM_OVERHEAD_TOKENS
  if st.2.1 ≠ [] ∧ st.2.2 + item_tokens > budget then
    (flush_batch oracle n st.2.1 st.1, [idx], item_tokens)
  else
    (st.1, st.2.1 ++ [idx], st.2.2 + item_tokens)

/-- The processable indices: `[idx for idx, tks in enumerate(counts) if tks
<= MAX_INPUT_BUDGET]`. -/
def processQueue (counts : List Nat) (budget : Nat) : List Nat :=
  (counts.enum.filter (fun p => decide (p.2 ≤ budget))).map Prod.fst

/-- `batch_generate_tags(contents)` from `scripts/generate_tags.py`, with the
tokenizer and the per-batch LLM call injected.  Oversized items are excluded
from the queue, the rest are greedily packed and flushed per batch, and the
final batch is flushed after the loop. -/
def batch_generate_tags (encLen : String → Nat) (INPUT_MAX_TOKENS : Nat)
    (oracle : List Nat → Option JsonVal) (contents : List String) :
    List (List String) :=
  if contents = [] then []
  else
    let counts := contents.map encLen
    let budget := MAX_INPUT_BUDGET INPUT_MAX_TOKENS
    let n := contents.length
    let results : List (List String) := List.replicate n []
    let process_queue := processQueue counts budget
    if process_queue = [] then results
    else
      let st := process_queue.foldl (batchStep oracle n budget counts)
        (results, [], 0)
      flush_batch oracle n st.2.1 st.1

/-- One step of the greedy bin-packing algorithm as the specification words
it, acting on `(closed batches, current batch, batch tokens)`. -/
def greedyStep (itemTokens : Nat → Nat) (budget : Nat)
    (st : List (List Nat) × List Nat × Nat) (idx : Nat) :
    List (List Nat) × List Nat × Nat :=
  let t := itemTokens idx
  if st.2.1 ≠ [] ∧ st.2.2 + t > budget then
    (st.1 ++ [st.2.1], [idx], t)
  else
    (st.1, st.2.1 ++ [idx], st.2.2 + t)

/-- Append the final batch to the closed ones when it is non-empty. -/
def closeBatches (st : List (List Nat) × List Nat × Nat) : List (List Nat) :=
  if st.2.1 ≠ [] then st.1 ++ [st.2.1] else st.1

/-- The batch partition prescribed by the specification (§4.2 step 4),
written from its words: iterate indices in order, close the current batch
exactly when it is non-empty and the item would overflow the budget, and
flush any non-empty remaining batch after the loop. -/
def specGreedyBatches (itemTokens : Nat → Nat) (budget : Nat)
    (queue : List Nat) : List (List Nat) :=
  closeBatches (queue.foldl (greedyStep itemTokens budget) ([], [], 0))

/-- Apply the per-batch generation call for each batch in order. -/
def foldFlush (oracle : List Nat → Option JsonVal) (n : Nat)
    (res : List (List String)) (bs : List (List Nat)) : List (List String) :=
  bs.foldl (fun r b => flush_batch oracle n b r) res

lemma foldFlush_cons (oracle : List Nat → Option JsonVal) (n : Nat)
    (res : List (List String)) (b : List Nat) (bs : List (List Nat)) :
    foldFlush oracle n res (b :: bs) = foldFlush oracle n (flush_batch oracle n b res) bs :=
  rfl

lemma closeBatches_accum (bs : List (List Nat)) (g : List (List Nat) × List Nat × Nat) :
    closeBatches (bs ++ g.1, g.2) = bs ++ closeBatches g := by
  unfold closeBatches
  split <;> simp

/-- The greedy fold only appends to the list of closed batches. -/
lemma greedy_accum (it : Nat → Nat) (budget : Nat) :
    ∀ (queue : List Nat) (bs : List (List Nat)) (b : List Nat) (tk : Nat),
      queue.foldl (greedyStep it budget) (bs, b, tk) =
        (bs ++ (queue.foldl (greedyStep it budget) ([], b, tk)).1,
         (queue.foldl (greedyStep it budget) ([], b, tk)).2) := by
  intro queue
  induction queue with
  | nil => intro bs b tk; simp
  | cons i rest ih =>
    intro bs b tk
    simp only [List.foldl_cons, greedyStep]
    by_cases hc : b ≠ [] ∧ budget < tk + it i
    · simp only [if_pos hc, List.nil_append]
      rw [ih (bs ++ [b]) [i] (it i), ih [b] [i] (it i)]
      simp [List.append_assoc]
    · simp only [if_neg hc]
      exact ih bs (b ++ [i]) (tk + it i)

/-- Running the packing loop of `batch_generate_tags` and flushing the final
batch is the same as flushing, in order, exactly the batches the greedy
algorithm of the specification prescribes. -/
lemma batch_run_eq (oracle : List Nat → Option JsonVal) (n budget : Nat)
    (counts : List Nat) :
    ∀ (queue : List Nat) (res : List (List String)) (b : List Nat) (tk : Nat),
      flush_batch oracle n
          (queue.foldl (batchStep oracle n budget counts) (res, b, tk)).2.1
          (queue.foldl (batchStep oracle n budget counts) (res, b, tk)).1 =
        foldFlush oracle n res
          (closeBatches (queue.foldl
            (greedyStep (fun i => counts.getD i 0 + PER_ITEM_OVERHEAD_TOKENS) budget)
            ([], b, tk))) := by
  intro queue
  induction queue with
  | nil =>
    intro res b tk
    simp only [List.foldl_nil, closeBatches]
    by_cases hb : b = []
    · subst hb
      simp [flush_batch, foldFlush]
    · simp [hb, foldFlush, flush_batch]
  | cons i rest ih =>
    intro res b tk
    simp only [List.foldl_cons, batchStep, greedyStep]
    by_cases hc : b ≠ [] ∧ budget < tk + (counts.getD i 0 + PER_ITEM_OVERHEAD_TOKENS)
    · simp only [if_pos hc, List.nil_append]
      rw [ih (flush_batch oracle n b res) [i] (counts.getD i 0 + PER_ITEM_OVERHEAD_TOKENS),
        greedy_accum _ _ rest [b] [i] (counts.getD i 0 + PER_ITEM_OVERHEAD_TOKENS),
        closeBatches_accum, ← foldFlush_cons]
      rfl
    · simp only [if_neg hc]
      exact ih res (b ++ [i]) (tk + (counts.getD i 0 + PER_ITEM_OVERHEAD_TOKENS))

/-- `batch_generate_tags` equals the per-batch flushes over the greedy batch
partition of the processable queue. -/
lemma batch_eq_foldFlush (encLen : String → Nat) (INPUT_MAX_TOKENS : Nat)
    (oracle : List Nat → Option JsonVal) (contents : List String) :
    batch_generate_tags encLen INPUT_MAX_TOKENS oracle contents =
      foldFlush oracle contents.length (List.replicate contents.length [])
        (specGreedyBatches
          (fun i => (contents.map encLen).getD i 0 + PER_ITEM_OVERHEAD_TOKENS)
          (MAX_INPUT_BUDGET INPUT_MAX_TOKENS)
          (processQueue (contents.map encLen) (MAX_INPUT_BUDGET INPUT_MAX_TOKENS))) := by
  unfold batch_generate_tags
  by_cases h0 : contents = []
  · subst h0
    rfl
  · rw [if_neg h0]
    simp only []
    by_cases hq : processQueue (contents.map encLen) (MAX_INPUT_BUDGET INPUT_MAX_TOKENS) = []
    · rw [if_pos hq, hq]
      rfl
    · rw [if_neg hq]
      exact batch_run_eq oracle contents.length (MAX_INPUT_BUDGET INPUT_MAX_TOKENS)
        (contents.map encLen)
        (processQueue (contents.map encLen) (MAX_INPUT_BUDGET INPUT_MAX_TOKENS))
        (List.replicate contents.length []) [] 0

/-- C5: the code partitions the processable indices into batches exactly as
the specification's greedy algorithm prescribes — iterating indices in input
order with `itemTokens = tokenCount + PER_ITEM_OVERHEAD_TOKENS`, closing a
batch precisely when it is non-empty and would overflow `maxInputBudget`,
flushing the final non-empty batch after the loop — and its result is the
per-batch generation calls applied over exactly those batches in order. -/
theorem claim_C5_greedy_batches (encLen : String → Nat) (INPUT_MAX_TOKENS : Nat)
    (oracle : List Nat → Option JsonVal) (contents : List String) :
    batch_generate_tags encLen INPUT_MAX_TOKENS oracle contents =
      foldFlush oracle contents.length (List.replicate contents.length [])
        (specGreedyBatches
          (fun i => (contents.map encLen).getD i 0 + PER_ITEM_OVERHEAD_TOKENS)
          (MAX_INPUT_BUDGET INPUT_MAX_TOKENS)
          (processQueue (contents.map encLen) (MAX_INPUT_BUDGET INPUT_MAX_TOKENS))) :=
  batch_eq_foldFlush encLen INPUT_MAX_TOKENS oracle contents

lemma length_objItemStep (n : Nat) (res : List (List String)) (it : JsonVal) :
    (objItemStep n res it).length = res.length := by
  unfold objItemStep
  split
  · split
    · split <;> simp [List.length_set]
    · rfl
  · rfl

lemma length_posItemStep (b : List Nat) (res : List (List String)) (p : Nat × JsonVal) :
    (posItemStep b res p).length = res.length := by
  unfold posItemStep
  split <;> simp [List.length_set]

lemma length_foldl_of_step {α : Type} (f : List (List String) → α → List (List String))
    (hf : ∀ res a, (f res a).length = res.length) :
    ∀ (l : List α) (res : List (List String)), (l.foldl f res).length = res.length := by
  intro l
  induction l with
  | nil => intro res; rfl
  | cons a tl ih => intro res; rw [List.foldl_cons, ih, hf]

/-- `flush_batch` never changes the length of the result buffer. -/
lemma length_flush_batch (oracle : List Nat → Option JsonVal) (n : Nat)
    (b : List Nat) (res : List (List String)) :
    (flush_batch oracle n b res).length = res.length := by
  unfold flush_batch
  split
  · rfl
  · split
    · rfl
    · split
      · split
        · split
          · exact length_foldl_of_step _ (length_objItemStep n) _ res
          · exact length_foldl_of_step _ (length_posItemStep b) _ res
        · rfl
      · rfl

lemma length_foldFlush (oracle : List Nat → Option JsonVal) (n : Nat)
    (bs : List (List Nat)) (res : List (List String)) :
    (foldFlush oracle n res bs).length = res.length :=
  length_foldl_of_step _ (fun r b => length_flush_batch oracle n b r) bs res

lemma objItemWrites_accum (n : Nat) :
    ∀ (items : List JsonVal) (acc : List Nat),
      items.foldl (objItemWrites n) acc = acc ++ items.foldl (objItemWrites n) [] := by
  intro items
  induction items with
  | nil => intro acc; simp
  | cons it rest ih =>
    intro acc
    rw [List.foldl_cons, List.foldl_cons, ih (objItemWrites n acc it),
      ih (objItemWrites n [] it), ← List.append_assoc]
    congr 1
    unfold objItemWrites
    split
    · split
      · split <;> simp
      · simp
    · simp

/-- Positions outside the object-form write set are untouched by the
object-form loop. -/
lemma getElem?_objItemStep_foldl (n : Nat) (j : Nat) :
    ∀ (items : List JsonVal) (res : List (List String)),
      j ∉ items.foldl (objItemWrites n) [] →
      (items.foldl (objItemStep n) res)[j]? = res[j]? := by
  intro items
  induction items with
  | nil => intro res _; rfl
  | cons it rest ih =>
    intro res h
    rw [List.foldl_cons] at h ⊢
    rw [objItemWrites_accum n rest] at h
    simp only [List.mem_append, not_or] at h
    obtain ⟨h1, h2⟩ := h
    rw [ih (objItemStep n res it) h2]
    unfold objItemStep
    unfold objItemWrites at h1
    cases it with
    | jobj f =>
      dsimp only at h1 ⊢
      cases hl : f.lookup "index" with
      | none => rfl
      | some v =>
        cases v with
        | jnum i =>
          rw [hl] at h1
          dsimp only at h1 ⊢
          by_cases hcond : 0 ≤ i ∧ i < (n : Int)
          · rw [if_pos hcond] at h1 ⊢
            refine List.getElem?_set_ne ?_
            intro he
            exact h1 (by simp [he])
          · rw [if_neg hcond]
        | jnull => rfl
        | jbool x => rfl
        | jstr x => rfl
        | jarr x => rfl
        | jobj x => rfl
    | jnull => rfl
    | jbool x => rfl
    | jnum x => rfl
    | jstr x => rfl
    | jarr x => rfl

/-- Positions outside the positional write set are untouched by the
positional loop. -/
lemma getElem?_posItemStep_foldl (b : List Nat) (j : Nat) :
    ∀ (ps : List (Nat × JsonVal)) (res : List (List String)),
      j ∉ (ps.filter (fun p => decide (p.1 < b.length))).map (fun p => b.getD p.1 0) →
      (ps.foldl (posItemStep b) res)[j]? = res[j]? := by
  intro ps
  induction ps with
  | nil => intro res _; rfl
  | cons p rest ih =>
    intro res h
    rw [List.foldl_cons]
    by_cases hp : p.1 < b.length
    · rw [List.filter_cons_of_pos (by simpa using hp)] at h
      simp only [List.map_cons, List.mem_cons, not_or] at h
      obtain ⟨h1, h2⟩ := h
      rw [ih _ h2]
      unfold posItemStep
      rw [if_pos hp]
      exact List.getElem?_set_ne (fun he => h1 he.symm)
    · rw [List.filter_cons_of_neg (by simpa using hp)] at h
      rw [ih _ h]
      unfold posItemStep
      rw [if_neg hp]

/-- A result position outside `respWrites` is untouched by `flush_batch`. -/
lemma getElem?_flush_batch (oracle : List Nat → Option JsonVal) (n : Nat)
    (b : List Nat) (res : List (List String)) (j : Nat)
    (h : j ∉ respWrites n b (oracle b)) :
    (flush_batch oracle n b res)[j]? = res[j]? := by
  unfold flush_batch
  split
  · rfl
  · cases ho : oracle b with
    | none => rfl
    | some data =>
      rw [ho] at h
      cases data with
      | jobj fields =>
        simp only [respWrites] at h
        dsimp only at h ⊢
        cases hres : (fields.lookup "results").getD (JsonVal.jarr []) with
        | jarr raw =>
          rw [hres] at h
          dsimp only at h ⊢
          by_cases hobj : raw.any isJObj
          · rw [if_pos hobj] at h ⊢
            exact getElem?_objItemStep_foldl n j raw res h
          · rw [if_neg hobj] at h ⊢
            exact getElem?_posItemStep_foldl b j raw.enum res h
        | jnull => rfl
        | jbool x => rfl
        | jnum x => rfl
        | jstr x => rfl
        | jobj x => rfl
      | jnull => rfl
      | jbool x => rfl
      | jnum x => rfl
      | jstr x => rfl
      | jarr x => rfl

/-- A result position outside every batch's write set survives all flushes. -/
lemma getElem?_foldFlush (oracle : List Nat → Option JsonVal) (n : Nat) (j : Nat) :
    ∀ (bs : List (List Nat)) (res : List (List String)),
      (∀ b ∈ bs, j ∉ respWrites n b (oracle b)) →
      (foldFlush oracle n res bs)[j]? = res[j]? := by
  intro bs
  induction bs with
  | nil => intro res _; rfl
  | cons b rest ih =>
    intro res h
    rw [foldFlush_cons, ih _ (fun b2 hb2 => h b2 (List.mem_cons_of_mem b hb2)),
      getElem?_flush_batch oracle n b res j (h b (List.mem_cons_self b rest))]

/-- C2: `batch_generate_tags` always returns exactly one tag list per input,
and a position that no parsed response writes holds the default empty list,
regardless of batch boundaries, response ordering, or batch failures. -/
theorem claim_C2_shape_alignment (encLen : String → Nat) (INPUT_MAX_TOKENS : Nat)
    (oracle : List Nat → Option JsonVal) (contents : List String) :
    (batch_generate_tags encLen INPUT_MAX_TOKENS oracle contents).length =
      contents.length ∧
    (∀ i < contents.length,
      (∀ b, i ∉ respWrites contents.length b (oracle b)) →
      (batch_generate_tags encLen INPUT_MAX_TOKENS oracle contents)[i]? = some []) := by
  constructor
  · rw [batch_eq_foldFlush, length_foldFlush, List.length_replicate]
  · intro i hi hw
    rw [batch_eq_foldFlush, getElem?_foldFlush oracle contents.length i _ _
      (fun b _ => hw b)]
    simp [List.getElem?_replicate, hi]

/-- Witness for C2 at a concrete input: one item, an oracle that always
raises. -/
theorem claim_C2_witness :
    (batch_generate_tags charTok 2000 (fun _ => none) ["a"]).length = 1 ∧
    (batch_generate_tags charTok 2000 (fun _ => none) ["a"])[0]? = some [] :=
  ⟨(claim_C2_shape_alignment charTok 2000 (fun _ => none) ["a"]).1,
   (claim_C2_shape_alignment charTok 2000 (fun _ => none) ["a"]).2 0 (by decide)
     (fun b => by simp [respWrites])⟩

/-- The processable queue holds exactly the in-range indices whose token
count is within the budget. -/
lemma mem_processQueue (counts : List Nat) (budget : Nat) (i : Nat) :
    i ∈ processQueue counts budget ↔ i < counts.length ∧ counts.getD i 0 ≤ budget := by
  unfold processQueue
  constructor
  · intro h
    obtain ⟨p, hp, hfst⟩ := List.mem_map.mp h
    obtain ⟨hpe, hple⟩ := List.mem_filter.mp hp
    have hg : counts[p.1]? = some p.2 := List.mem_enum_iff_getElem?.mp hpe
    obtain ⟨hlt, hv⟩ := List.getElem?_eq_some.mp hg
    subst hfst
    refine ⟨hlt, ?_⟩
    rw [List.getD_eq_getElem?_getD, List.getElem?_eq_getElem hlt]
    simp only [Option.getD_some, hv]
    exact Nat.le_of_ble_eq_true (by simpa using hple)
  · rintro ⟨hlt, hle⟩
    refine List.mem_map.mpr ⟨(i, counts[i]), ?_, rfl⟩
    refine List.mem_filter.mpr ⟨?_, ?_⟩
    · exact List.mem_enum_iff_getElem?.mpr (List.getElem?_eq_getElem hlt)
    · rw [List.getD_eq_getElem?_getD, List.getElem?_eq_getElem hlt] at hle
      simpa using hle

/-- Invariant of the greedy fold: the concatenation of all closed batches,
the current batch, and the remaining queue never changes. -/
lemma greedy_flatten_invariant (it : Nat → Nat) (budget : Nat) :
    ∀ (queue : List Nat) (bs : List (List Nat)) (b : List Nat) (tk : Nat),
      (closeBatches (queue.foldl (greedyStep it budget) (bs, b, tk))).flatten =
        bs.flatten ++ b ++ queue := by
  intro queue
  induction queue with
  | nil =>
    intro bs b tk
    simp only [List.foldl_nil]
    unfold closeBatches
    split
    · simp
    · next hb =>
      rw [not_not] at hb
      simp only [] at hb
      subst hb
      simp
  | cons i rest ih =>
    intro bs b tk
    simp only [List.foldl_cons, greedyStep]
    by_cases hc : b ≠ [] ∧ budget < tk + it i
    · simp only [if_pos hc]
      rw [ih (bs ++ [b]) [i] (it i)]
      simp
    · simp only [if_neg hc]
      rw [ih bs (b ++ [i]) (tk + it i)]
      simp

/-- The greedy batches partition the queue: their concatenation is the queue
itself. -/
lemma specGreedyBatches_flatten (it : Nat → Nat) (budget : Nat) (queue : List Nat) :
    (specGreedyBatches it budget queue).flatten = queue := by
  unfold specGreedyBatches
  rw [greedy_flatten_invariant]
  rfl

lemma processQueue_nodup (counts : List Nat) (budget : Nat) :
    (processQueue counts budget).Nodup := by
  have h1 : List.Sublist (processQueue counts budget) (counts.enum.map Prod.fst) :=
    List.Sublist.map Prod.fst (List.filter_sublist counts.enum)
  rw [List.enum_map_fst] at h1
  exact h1.nodup (List.nodup_range _)

/-- The batch partition `batch_generate_tags` uses for a given input. -/
def batchesOf (encLen : String → Nat) (INPUT_MAX_TOKENS : Nat)
    (contents : List String) : List (List Nat) :=
  specGreedyBatches
    (fun i => (contents.map encLen).getD i 0 + PER_ITEM_OVERHEAD_TOKENS)
    (MAX_INPUT_BUDGET INPUT_MAX_TOKENS)
    (processQueue (contents.map encLen) (MAX_INPUT_BUDGET INPUT_MAX_TOKENS))

lemma batchesOf_flatten (encLen : String → Nat) (INPUT_MAX_TOKENS : Nat)
    (contents : List String) :
    (batchesOf encLen INPUT_MAX_TOKENS contents).flatten =
      processQueue (contents.map encLen) (MAX_INPUT_BUDGET INPUT_MAX_TOKENS) :=
  specGreedyBatches_flatten _ _ _

/-- C4: an item whose token count exceeds `maxInputBudget = max(1024,
INPUT_MAX_TOKENS - FIXED_OVERHEAD_TOKENS)` appears in no batch and keeps the
empty tag list (given that responses only name indices of the batch they
answer), every within-budget item is packed into some batch, and the call
still returns a full-length result. -/
theorem claim_C4_oversized_items (encLen : String → Nat) (INPUT_MAX_TOKENS : Nat)
    (oracle : List Nat → Option JsonVal) (contents : List String)
    (hWB : ∀ b j, j ∈ respWrites contents.length b (oracle b) → j ∈ b) :
    (∀ i < contents.length,
      MAX_INPUT_BUDGET INPUT_MAX_TOKENS < (contents.map encLen).getD i 0 →
      (batch_generate_tags encLen INPUT_MAX_TOKENS oracle contents)[i]? = some [] ∧
      ∀ b ∈ batchesOf encLen INPUT_MAX_TOKENS contents, i ∉ b) ∧
    (∀ i < contents.length,
      (contents.map encLen).getD i 0 ≤ MAX_INPUT_BUDGET INPUT_MAX_TOKENS →
      ∃ b ∈ batchesOf encLen INPUT_MAX_TOKENS contents, i ∈ b) ∧
    (batch_generate_tags encLen INPUT_MAX_TOKENS oracle contents).length =
      contents.length := by
  have hnotb : ∀ i, contents.length ≤ i ∨
      MAX_INPUT_BUDGET INPUT_MAX_TOKENS < (contents.map encLen).getD i 0 →
      ∀ b ∈ batchesOf encLen INPUT_MAX_TOKENS contents, i ∉ b := by
    intro i hi b hb hib
    have hflat : i ∈ (batchesOf encLen INPUT_MAX_TOKENS contents).flatten :=
      List.mem_flatten.mpr ⟨b, hb, hib⟩
    rw [batchesOf_flatten] at hflat
    obtain ⟨hlt, hle⟩ := (mem_processQueue _ _ i).mp hflat
    rw [List.length_map] at hlt
    rcases hi with hi | hi
    · omega
    · omega
  refine ⟨?_, ?_, ?_⟩
  · intro i hi hbig
    have hnb := hnotb i (Or.inr hbig)
    constructor
    · rw [batch_eq_foldFlush, getElem?_foldFlush oracle contents.length i _ _ ?_]
      · simp [List.getElem?_replicate, hi]
      · intro b hb hw
        exact hnb b hb (hWB b i hw)
    · exact hnb
  · intro i hi hle
    have hq : i ∈ processQueue (contents.map encLen) (MAX_INPUT_BUDGET INPUT_MAX_TOKENS) := by
      refine (mem_processQueue _ _ i).mpr ⟨?_, hle⟩
      rw [List.length_map]
      exact hi
    rw [← batchesOf_flatten encLen INPUT_MAX_TOKENS contents] at hq
    exact List.mem_flatten.mp hq
  · rw [batch_eq_foldFlush, length_foldFlush, List.length_replicate]

/-- Tokenizer for the C4 witness: one oversized item among three. -/
def tokC4 (s : String) : Nat := if s = "BIG" then 2000 else 1

/-- Witness for C4 at a concrete input: the middle item exceeds the budget,
the oracle always raises. -/
theorem claim_C4_witness :
    (batch_generate_tags tokC4 0 (fun _ => none) ["a", "BIG", "b"])[1]? = some [] ∧
    (∃ b ∈ batchesOf tokC4 0 ["a", "BIG", "b"], 0 ∈ b) ∧
    (batch_generate_tags tokC4 0 (fun _ => none) ["a", "BIG", "b"]).length = 3 := by
  have H := claim_C4_oversized_items tokC4 0 (fun _ => none) ["a", "BIG", "b"]
    (fun b j hj => by simp [respWrites] at hj)
  exact ⟨(H.1 1 (by decide) (by decide)).1, H.2.1 0 (by decide) (by decide), H.2.2⟩

/-- C6: when the generation call for a batch raises (`oracle b = none`) or
its response is malformed so that it writes nothing, every item of that
batch keeps the empty tag list, while the remaining batches are still
processed and the caller still receives a full-length result — the exception
never propagates (given that responses only name indices of the batch they
answer). -/
theorem claim_C6_failure_isolation (encLen : String → Nat) (INPUT_MAX_TOKENS : Nat)
    (oracle : List Nat → Option JsonVal) (contents : List String)
    (hWB : ∀ b j, j ∈ respWrites contents.length b (oracle b) → j ∈ b) :
    (∀ b ∈ batchesOf encLen INPUT_MAX_TOKENS contents,
      (oracle b = none ∨ respWrites contents.length b (oracle b) = []) →
      ∀ i ∈ b,
        (batch_generate_tags encLen INPUT_MAX_TOKENS oracle contents)[i]? = some []) ∧
    (batch_generate_tags encLen INPUT_MAX_TOKENS oracle contents).length =
      contents.length := by
  constructor
  · intro b hb hfail i hib
    have hq : i ∈ processQueue (contents.map encLen) (MAX_INPUT_BUDGET INPUT_MAX_TOKENS) := by
      rw [← batchesOf_flatten encLen INPUT_MAX_TOKENS contents]
      exact List.mem_flatten.mpr ⟨b, hb, hib⟩
    have hi : i < contents.length := by
      have := ((mem_processQueue _ _ i).mp hq).1
      rwa [List.length_map] at this
    have hpair : List.Pairwise List.Disjoint (batchesOf encLen INPUT_MAX_TOKENS contents) := by
      have hnd : ((batchesOf encLen INPUT_MAX_TOKENS contents).flatten).Nodup := by
        rw [batchesOf_flatten]
        exact processQueue_nodup _ _
      exact (List.nodup_flatten.mp hnd).2
    rw [batch_eq_foldFlush, getElem?_foldFlush oracle contents.length i _ _ ?_]
    · simp [List.getElem?_replicate, hi]
    · intro b2 hb2 hw
      have hib2 : i ∈ b2 := hWB b2 i hw
      by_cases heq : b2 = b
      · subst heq
        rcases hfail with hf | hf
        · rw [hf] at hw
          exact absurd hw (List.not_mem_nil i)
        · rw [hf] at hw
          exact absurd hw (List.not_mem_nil i)
      · have hdisj : List.Disjoint b2 b :=
          List.Pairwise.forall (fun x y hxy => List.disjoint_comm.mp hxy) hpair hb2 hb heq
        exact hdisj hib2 hib
  · rw [batch_eq_foldFlush, length_foldFlush, List.length_replicate]

/-- Witness for C6 at a concrete input: a single batch whose call raises. -/
theorem claim_C6_witness :
    (batch_generate_tags charTok 3000 (fun _ => none) ["ab"])[0]? = some [] ∧
    (batch_generate_tags charTok 3000 (fun _ => none) ["ab"]).length = 1 := by
  have H := claim_C6_failure_isolation charTok 3000 (fun _ => none) ["ab"]
    (fun b j hj => by simp [respWrites] at hj)
  exact ⟨H.1 [0] (by decide) (Or.inl rfl) 0 (by decide), H.2⟩

end Portfolio
